import Mathlib

/-!
# Pipeline signing: canonicalization and sign/verify engine

A shallow embedding of the pipeline-signing core of this repository: the
canonical field encoder, the environment merge policy, the signature engine
(Sign/Verify), the step-collection signer, and the catch-all unknown step.

The signing core itself is not present under `src/` (only its test file
`src/unnamed/part_001` and `src/internal/pipeline/unknown_step.go` are), so
the engine definitions below are modelled from the specification, with each
such definition marked `Modelled from the spec:` in its doc comment.
`UnknownStep` is embedded directly from `src/internal/pipeline/unknown_step.go`.

Machine strings and byte sequences are modelled as `List Nat` (one `Nat` per
byte); the cryptographic primitive layer, which the spec declares out of
scope ("treated as provided cryptographic primitives"), is modelled as an
ideal, collision-free primitive.
-/

namespace PipelineSig

/-- A byte string: one `Nat` per byte. -/
abbrev Bytes := List Nat

/-- The bytes of an ASCII string literal (codepoint per character, which for
the ASCII inputs used here coincides with the byte encoding). -/
def strBytes (s : String) : Bytes := s.data.map Char.toNat

/-- Lexicographic (bytewise) order on byte strings, used to sort field names.
Modelled from the spec: "sort field names lexicographically". -/
def bytesLe : Bytes → Bytes → Bool
  | [], _ => true
  | _ :: _, [] => false
  | a :: as, b :: bs => if a < b then true else if b < a then false else bytesLe as bs

theorem bytesLe_refl (a : Bytes) : bytesLe a a = true := by
  induction a with
  | nil => rfl
  | cons x xs ih => simp [bytesLe, ih]

theorem bytesLe_total (a b : Bytes) : bytesLe a b = true ∨ bytesLe b a = true := by
  induction a generalizing b with
  | nil => left; rfl
  | cons x xs ih =>
    cases b with
    | nil => right; rfl
    | cons y ys =>
      rcases Nat.lt_trichotomy x y with h | h | h
      · left; simp [bytesLe, h]
      · subst h
        rcases ih ys with h' | h'
        · left; simp [bytesLe, h']
        · right; simp [bytesLe, h']
      · right; simp [bytesLe, h, Nat.not_lt.mpr (Nat.le_of_lt h)]

theorem bytesLe_antisymm {a b : Bytes} (hab : bytesLe a b = true)
    (hba : bytesLe b a = true) : a = b := by
  induction a generalizing b with
  | nil =>
    cases b with
    | nil => rfl
    | cons y ys => simp [bytesLe] at hba
  | cons x xs ih =>
    cases b with
    | nil => simp [bytesLe] at hab
    | cons y ys =>
      rcases Nat.lt_trichotomy x y with h | h | h
      · simp [bytesLe, h, Nat.not_lt.mpr (Nat.le_of_lt h)] at hba
      · subst h
        simp only [bytesLe, Nat.lt_irrefl, if_false] at hab hba
        rw [ih hab hba]
      · simp [bytesLe, h, Nat.not_lt.mpr (Nat.le_of_lt h)] at hab

theorem bytesLe_trans {a b c : Bytes} (hab : bytesLe a b = true)
    (hbc : bytesLe b c = true) : bytesLe a c = true := by
  induction a generalizing b c with
  | nil => rfl
  | cons x xs ih =>
    cases b with
    | nil => simp [bytesLe] at hab
    | cons y ys =>
      cases c with
      | nil => simp [bytesLe] at hbc
      | cons z zs =>
        rcases Nat.lt_trichotomy x y with hxy | hxy | hxy
        · rcases Nat.lt_trichotomy y z with hyz | hyz | hyz
          · simp [bytesLe, Nat.lt_trans hxy hyz]
          · subst hyz; simp [bytesLe, hxy]
          · simp [bytesLe, hyz, Nat.not_lt.mpr (Nat.le_of_lt hyz)] at hbc
        · subst hxy
          rcases Nat.lt_trichotomy x z with hyz | hyz | hyz
          · simp [bytesLe, hyz]
          · subst hyz
            simp only [bytesLe, Nat.lt_irrefl, if_false] at hab hbc ⊢
            exact ih hab hbc
          · simp [bytesLe, hyz, Nat.not_lt.mpr (Nat.le_of_lt hyz)] at hbc
        · simp [bytesLe, hxy, Nat.not_lt.mpr (Nat.le_of_lt hxy)] at hab

/-- A field map: an association list from field name to canonical string
value, both as byte strings. -/
abbrev FieldMap := List (Bytes × Bytes)

/-- The keys of a field map are pairwise distinct. -/
def keysNodup (l : FieldMap) : Prop := (l.map Prod.fst).Nodup

instance (l : FieldMap) : Decidable (keysNodup l) := by
  unfold keysNodup; infer_instance

/-- Ordering of field-map entries by name, used by the canonical encoder. -/
def fieldLe (p q : Bytes × Bytes) : Prop := bytesLe p.1 q.1 = true

instance : DecidableRel fieldLe := fun p q => by
  unfold fieldLe; infer_instance

instance : IsTotal (Bytes × Bytes) fieldLe :=
  ⟨fun p q => bytesLe_total p.1 q.1⟩

instance : IsTrans (Bytes × Bytes) fieldLe :=
  ⟨fun _ _ _ hab hbc => bytesLe_trans hab hbc⟩

/-- Strict ordering of entries: name strictly smaller. Antisymmetric, which
is what makes the sorted form of a map with distinct keys unique. -/
def fieldLt (p q : Bytes × Bytes) : Prop := fieldLe p q ∧ p.1 ≠ q.1

instance : IsAntisymm (Bytes × Bytes) fieldLt :=
  ⟨fun _ _ hab hba => absurd (bytesLe_antisymm hab.1 hba.1) hab.2⟩

/-- The canonical (name-sorted) form of a field map.
Modelled from the spec: "sort field names lexicographically". -/
def canonFields (l : FieldMap) : FieldMap := List.insertionSort fieldLe l

/-- The 4-byte little-endian length prefix.
Modelled from the spec: "length-prefix each piece, e.g.
`<4-byte length><name bytes><4-byte length><value bytes>`". -/
def u32 (n : Nat) : Bytes := [n % 256, n / 256 % 256, n / 65536 % 256, n / 16777216 % 256]

/-- Self-delimiting encoding of one byte string: 4-byte length, then the bytes. -/
def withLen (b : Bytes) : Bytes := u32 b.length ++ b

/-- Concatenation of the self-delimiting encodings of the entries in order.
Modelled from the spec: "for each name in that order, append a self-delimiting
encoding of the name followed by a self-delimiting encoding of the value". -/
def flatEncode : FieldMap → Bytes
  | [] => []
  | (n, v) :: rest => withLen n ++ withLen v ++ flatEncode rest

/-- The Canonical Field Encoder.
Modelled from the spec: sort the field names lexicographically, then
length-prefix-encode each name and value in that order and concatenate. -/
def encodeFields (l : FieldMap) : Bytes := flatEncode (canonFields l)

/-- An environment mapping (pipeline-level or step-level): an association
list from variable name to value. -/
abbrev EnvMap := List (Bytes × Bytes)

/-- Whether an association list has an entry for key `k`. -/
def containsKey (k : Bytes) (l : List (Bytes × Bytes)) : Bool :=
  l.any (fun p => p.1 == k)

/-- The Environment Merge Policy.
Modelled from the spec: "produce one effective mapping where, for any key
present in both, the pipeline-level value wins". -/
def mergeEnv (penv senv : EnvMap) : EnvMap :=
  penv ++ senv.filter (fun p => !containsKey p.1 penv)

/-- Serialization of the effective environment into a single field value.
Modelled from the spec: "serialized (e.g., as repeated `KEY=VALUE`
self-delimited entries, sorted by key)" — realized by reusing the canonical
(sorted, length-prefixed) field encoding on the environment entries. -/
def serializeEnv (env : EnvMap) : Bytes := encodeFields env

/-- A plugin-configuration value: a string leaf or a nested mapping.
Modelled from the spec: "nested structures such as plugin configuration must
be deterministically stringified before insertion". -/
inductive CVal where
  | str : Bytes → CVal
  | map : List (Bytes × CVal) → CVal

mutual

/-- Deterministic stringification of a configuration value: leaves are
length-prefixed and tagged `0`; mappings are tagged `1` and canonically
encoded (entries serialized recursively, then sorted by key).
Modelled from the spec (4.1, 4.6 rationale). -/
def serializeCVal : CVal → Bytes
  | .str s => 0 :: withLen s
  | .map es => 1 :: encodeFields (serializeCEntries es)

/-- Serialize each entry's value of a configuration mapping, keeping keys. -/
def serializeCEntries : List (Bytes × CVal) → FieldMap
  | [] => []
  | (k, v) :: rest => (k, serializeCVal v) :: serializeCEntries rest

end

/-- A pipeline plugin: source identifier and configuration mapping. -/
structure Plugin where
  Source : Bytes
  Config : List (Bytes × CVal)

/-- Deterministic stringification of one plugin. Modelled from the spec. -/
def serializePlugin (p : Plugin) : Bytes :=
  withLen p.Source ++ serializeCVal (.map p.Config)

/-- Deterministic stringification of an ordered plugin list (order of the
plugin sequence is significant, unlike mapping iteration order).
Modelled from the spec. -/
def serializePlugins : List Plugin → Bytes
  | [] => []
  | p :: ps => withLen (serializePlugin p) ++ serializePlugins ps

/-- A command-execution step: command text, step-level environment overlay,
plugin list (the fields the test suite exercises). -/
structure CommandStep where
  Command : Bytes
  Env : EnvMap
  Plugins : List Plugin

/-- The Signable Step Abstraction: things that can produce a field map.
`commandStep` is the known signable variant; `fieldsMap` embeds the test
suite's `testFields` fielder (a bare name→value map). -/
inductive SignedFielder where
  | commandStep : CommandStep → SignedFielder
  | fieldsMap : FieldMap → SignedFielder

/-- The step-level environment a fielder contributes to the env merge. -/
def stepEnvOf : SignedFielder → EnvMap
  | .commandStep cs => cs.Env
  | .fieldsMap _ => []

/-- The fielder's own signed fields, before the engine adds the effective
environment field. Modelled from the spec: "returns every field that this
step variant considers part of its canonical identity". -/
def coreFields : SignedFielder → FieldMap
  | .commandStep cs =>
      [(strBytes "command", cs.Command), (strBytes "plugins", serializePlugins cs.Plugins)]
  | .fieldsMap m => m

/-- The fixed field name under which the effective environment is signed. -/
def envFieldName : Bytes := strBytes "env"

/-- The full field map signed for a fielder: the serialized effective
environment under the fixed name, plus the fielder's own fields.
Modelled from the spec (4.3): the merged mapping "is itself serialized …
and inserted into the Field Map under a fixed field name". -/
def allFields (env : EnvMap) (sf : SignedFielder) : FieldMap :=
  (envFieldName, serializeEnv (mergeEnv env (stepEnvOf sf))) :: coreFields sf

/-- The error kinds of the signing core. Modelled from the spec (§7). -/
inductive SigErr where
  | unsupportedStepType
  | unrecognizedAlgorithm
  | algorithmMismatch
  | unknownSignedField
  | verificationMismatch
  deriving DecidableEq

/-- Key material: an algorithm identifier plus opaque material.
Modelled from the spec: keys are "opaque to this core beyond algorithm
identification". -/
structure Key where
  Alg : String
  Material : Bytes
  deriving DecidableEq

/-- In the ideal-primitive model a verification key carries the same
material and algorithm as its signing counterpart. Modelled from the spec:
key pair structure is out of scope ("counterpart" is the only relation the
round-trip property needs). -/
def counterpartKey (k : Key) : Key := k

/-- The symmetric MAC algorithm identifiers the primitive layer recognizes
(those exercised by the test suite). -/
def symmetricAlgs : List String := ["HS256", "HS384", "HS512"]

/-- The asymmetric signature algorithm identifiers the primitive layer
recognizes (RSA-based, elliptic-curve-based, Edwards-curve). -/
def asymmetricAlgs : List String :=
  ["PS256", "PS384", "PS512", "ES256", "ES384", "ES512", "EdDSA"]

def isSymmetric (a : String) : Bool := symmetricAlgs.contains a

def isAsymmetric (a : String) : Bool := asymmetricAlgs.contains a

/-- Whether the primitive layer recognizes an algorithm identifier. -/
def recognized (a : String) : Bool := isSymmetric a || isAsymmetric a

/-- The ideal MAC/core tag over a message: algorithm and key, each
self-delimited, followed by the message. Collision-free by construction.
Modelled from the spec: the primitive layer is an out-of-scope collaborator
(`sign(alg, key, bytes) -> bytes`), modelled as an ideal primitive. -/
def tag (alg : String) (key msg : Bytes) : Bytes :=
  withLen (strBytes alg) ++ withLen key ++ msg

/-- Pad or truncate a nonce to exactly 4 bytes. -/
def pad4 (nonce : Bytes) : Bytes := (nonce ++ [0, 0, 0, 0]).take 4

/-- The primitive layer's signing operation. Symmetric MACs are
deterministic; asymmetric schemes fold in an explicit nonce (the shallow
embedding of their randomness); unrecognized algorithms are a hard failure.
Modelled from the spec (4.4, §6). -/
def primSign (alg : String) (key nonce msg : Bytes) : Option Bytes :=
  if isSymmetric alg then some (tag alg key msg)
  else if isAsymmetric alg then some (pad4 nonce ++ tag alg key msg)
  else none

/-- The primitive layer's verification operation: recompute the tag and
compare (ignoring the 4-byte nonce for asymmetric schemes).
Modelled from the spec (`verify(alg, key, bytes, sig) -> bool`). -/
def primVerify (alg : String) (key msg sig : Bytes) : Option Bool :=
  if isSymmetric alg then some (sig == tag alg key msg)
  else if isAsymmetric alg then
    some (decide (4 ≤ sig.length) && (sig.drop 4 == tag alg key msg))
  else none

/-- The Signature Artifact: algorithm identifier, ordered signed field
names, signature value. Modelled from the spec (§3). -/
structure Signature where
  Algorithm : String
  SignedFields : List Bytes
  Value : Bytes
  deriving DecidableEq

/-- The Signature Engine's Sign operation.
Modelled from the spec (4.4): resolve the effective env, build the field
map, canonicalize, invoke the primitive selected by the key's algorithm,
and package the result with the names actually signed (in signing order)
and the algorithm identifier. -/
def Sign (penv : EnvMap) (sf : SignedFielder) (key : Key) (nonce : Bytes) :
    Except SigErr Signature :=
  match primSign key.Alg key.Material nonce (flatEncode (canonFields (allFields penv sf))) with
  | none => .error .unrecognizedAlgorithm
  | some v =>
      .ok { Algorithm := key.Alg,
            SignedFields := (canonFields (allFields penv sf)).map Prod.fst,
            Value := v }

/-- Association lookup of a field name in a field map. -/
def findField (k : Bytes) : FieldMap → Option Bytes
  | [] => none
  | (n, v) :: rest => if n = k then some v else findField k rest

/-- `values_for_fields`: the current value of each requested field name,
failing with an unknown-field error when a name is not one the fielder
produces — never substituting a default.
Modelled from the spec (4.2). -/
def valuesForFields (fields : FieldMap) : List Bytes → Except SigErr FieldMap
  | [] => .ok []
  | n :: ns =>
      match findField n fields with
      | none => .error .unknownSignedField
      | some v =>
          match valuesForFields fields ns with
          | .error e => .error e
          | .ok rest => .ok ((n, v) :: rest)

/-- The Signature Engine's Verify operation.
Modelled from the spec (4.4): check the artifact's algorithm against the
key's, resolve the effective env, look up exactly the recorded signed field
names, canonicalize, and invoke the primitive's verification routine. -/
def Verify (sig : Signature) (venv : EnvMap) (sf : SignedFielder) (key : Key) :
    Except SigErr Unit :=
  if sig.Algorithm ≠ key.Alg then .error .algorithmMismatch
  else
    match valuesForFields (allFields venv sf) sig.SignedFields with
    | .error e => .error e
    | .ok vals =>
        match primVerify key.Alg key.Material (encodeFields vals) sig.Value with
        | none => .error .unrecognizedAlgorithm
        | some true => .ok ()
        | some false => .error .verificationMismatch

/-- A step of the pipeline: a known command step, or the catch-all variant
wrapping unrecognized content (not Signable). -/
inductive Step where
  | cmd : CommandStep → Step
  | unknown : CVal → Step

/-- A command step with its attached signature artifact. -/
structure SignedCommandStep where
  step : CommandStep
  sig : Signature

/-- The Step Collection Signer.
Modelled from the spec (4.5): walk the ordered steps; sign each Signable
step and attach its artifact; on the catch-all unrecognized variant refuse
the entire operation with the distinct unsupported-step-type error. The
`Except` result is the fail-closed policy of §8: on error, no artifact is
produced for any step of the batch. -/
def stepsSign (penv : EnvMap) (steps : List Step) (key : Key) (nonce : Bytes) :
    Except SigErr (List SignedCommandStep) :=
  match steps with
  | [] => .ok []
  | .cmd cs :: rest =>
      match Sign penv (.commandStep cs) key nonce with
      | .error e => .error e
      | .ok s =>
          match stepsSign penv rest key nonce with
          | .error e => .error e
          | .ok srest => .ok (⟨cs, s⟩ :: srest)
  | .unknown _ :: _ => .error .unsupportedStepType

/-- `UnknownStep` models any step this version does not know how to
represent; it wraps arbitrary contents verbatim. Embedded from
`src/internal/pipeline/unknown_step.go`; the contents type is a parameter
(`any` in the source). -/
structure UnknownStep (α : Type) where
  Contents : α

/-- `MarshalJSON` marshals exactly the contents of the step
(`json.Marshal(u.Contents)`), parametrized by the JSON encoder. Embedded
from `src/internal/pipeline/unknown_step.go`. -/
def UnknownStep.marshalJSON {α : Type} (enc : α → Bytes) (u : UnknownStep α) : Bytes :=
  enc u.Contents

/-- `MarshalYAML` returns exactly the contents of the step. Embedded from
`src/internal/pipeline/unknown_step.go`. -/
def UnknownStep.marshalYAML {α : Type} (u : UnknownStep α) : α := u.Contents

/-- `interpolate`, parametrized by the interpolation engine `interp`
(`interpolateAny` in the source, an external collaborator): on error the
receiver is left unchanged; on success the contents are replaced. Embedded
from `src/internal/pipeline/unknown_step.go` (the receiver mutation is made
explicit as a returned state). -/
def UnknownStep.interpolate {α : Type} (interp : EnvMap → α → Except String α)
    (env : EnvMap) (u : UnknownStep α) : Option String × UnknownStep α :=
  match interp env u.Contents with
  | .error e => (some e, u)
  | .ok c => (none, { Contents := c })

/-! ## Canonicalization lemmas -/

theorem canonFields_perm (l : FieldMap) : List.Perm (canonFields l) l :=
  List.perm_insertionSort fieldLe l

theorem sorted_canonFields (l : FieldMap) : List.Sorted fieldLe (canonFields l) :=
  List.sorted_insertionSort fieldLe l

theorem canonFields_canonFields (l : FieldMap) :
    canonFields (canonFields l) = canonFields l :=
  (sorted_canonFields l).insertionSort_eq

theorem keysNodup_of_perm {l1 l2 : FieldMap} (hp : List.Perm l1 l2) (h : keysNodup l1) :
    keysNodup l2 :=
  (hp.map Prod.fst).nodup h

/-- A name-sorted field map with pairwise-distinct keys is strictly sorted. -/
theorem sorted_fieldLt_of_nodup {l : FieldMap} (hs : List.Sorted fieldLe l)
    (hn : keysNodup l) : List.Sorted fieldLt l := by
  have hne : List.Pairwise (fun p q : Bytes × Bytes => p.1 ≠ q.1) l := by
    have := (@List.pairwise_map _ _ Prod.fst (fun a b : Bytes => a ≠ b) l).mp hn
    exact this
  exact hs.and hne

/-- Canonicalization is a function of the underlying set of pairs: any two
permutations of a duplicate-key-free field map canonicalize identically. -/
theorem canonFields_eq_of_perm {l1 l2 : FieldMap} (hp : List.Perm l1 l2)
    (hn : keysNodup l1) : canonFields l1 = canonFields l2 := by
  have hperm : List.Perm (canonFields l1) (canonFields l2) :=
    ((canonFields_perm l1).trans hp).trans (canonFields_perm l2).symm
  have hn1 : keysNodup (canonFields l1) :=
    keysNodup_of_perm (canonFields_perm l1).symm hn
  have hn2 : keysNodup (canonFields l2) :=
    keysNodup_of_perm hperm hn1
  exact List.eq_of_perm_of_sorted hperm
    (sorted_fieldLt_of_nodup (sorted_canonFields l1) hn1)
    (sorted_fieldLt_of_nodup (sorted_canonFields l2) hn2)

theorem encodeFields_eq_of_perm {l1 l2 : FieldMap} (hp : List.Perm l1 l2)
    (hn : keysNodup l1) : encodeFields l1 = encodeFields l2 := by
  unfold encodeFields
  rw [canonFields_eq_of_perm hp hn]

/-! ## Lookup lemmas -/

theorem findField_eq_of_mem {l : FieldMap} {n v : Bytes}
    (hn : keysNodup l) (hm : (n, v) ∈ l) : findField n l = some v := by
  induction l with
  | nil => cases hm
  | cons p rest ih =>
    obtain ⟨m, w⟩ := p
    unfold keysNodup at hn
    simp only [List.map_cons, List.nodup_cons] at hn
    rcases List.mem_cons.mp hm with h | h
    · obtain ⟨h1, h2⟩ := Prod.mk.injEq .. ▸ h
      injection h with h1 h2
      subst h1; subst h2
      simp [findField]
    · have hmn : m ≠ n := by
        intro he
        subst he
        exact hn.1 (List.mem_map.mpr ⟨(m, v), h, rfl⟩)
      simp only [findField, if_neg hmn]
      exact ih hn.2 h

theorem valuesForFields_of_mem {L : FieldMap} :
    ∀ {cs : FieldMap}, (∀ p ∈ cs, findField p.1 L = some p.2) →
      valuesForFields L (cs.map Prod.fst) = .ok cs := by
  intro cs
  induction cs with
  | nil => intro _; rfl
  | cons p rest ih =>
    intro h
    have hp : findField p.1 L = some p.2 := h p (List.mem_cons_self p rest)
    have hrest := ih (fun q hq => h q (List.mem_cons_of_mem p hq))
    simp only [List.map_cons, valuesForFields, hp, hrest]

/-! ## Injectivity of the length-prefixed encoding -/

/-- All names and values of a field map are shorter than `2^32` bytes, so
their lengths survive the 4-byte length prefix unchanged. -/
def boundedFields (l : FieldMap) : Prop :=
  ∀ p ∈ l, p.1.length < 4294967296 ∧ p.2.length < 4294967296

instance (l : FieldMap) : Decidable (boundedFields l) := by
  unfold boundedFields; infer_instance

theorem u32_inj {m n : Nat} (hm : m < 4294967296) (hn : n < 4294967296)
    (h : u32 m = u32 n) : m = n := by
  simp only [u32, List.cons.injEq, and_true] at h
  omega

theorem u32_length (n : Nat) : (u32 n).length = 4 := rfl

theorem withLen_inj_parts {a b ra rb : Bytes}
    (ha : a.length < 4294967296) (hb : b.length < 4294967296)
    (h : withLen a ++ ra = withLen b ++ rb) : a = b ∧ ra = rb := by
  unfold withLen at h
  rw [List.append_assoc, List.append_assoc] at h
  obtain ⟨h1, h2⟩ := List.append_inj h (by rw [u32_length, u32_length])
  have hlen : a.length = b.length := u32_inj ha hb h1
  exact List.append_inj h2 hlen

theorem flatEncode_inj : ∀ {l1 l2 : FieldMap}, boundedFields l1 → boundedFields l2 →
    flatEncode l1 = flatEncode l2 → l1 = l2 := by
  intro l1
  induction l1 with
  | nil =>
    intro l2 _ _ h
    cases l2 with
    | nil => rfl
    | cons q t =>
      obtain ⟨n2, v2⟩ := q
      simp [flatEncode, withLen, u32] at h
  | cons p t1 ih =>
    intro l2 hb1 hb2 h
    obtain ⟨n1, v1⟩ := p
    cases l2 with
    | nil => simp [flatEncode, withLen, u32] at h
    | cons q t2 =>
      obtain ⟨n2, v2⟩ := q
      have hp1 := hb1 (n1, v1) (List.mem_cons_self _ _)
      have hp2 := hb2 (n2, v2) (List.mem_cons_self _ _)
      simp only [flatEncode, List.append_assoc] at h
      rw [← List.append_assoc (withLen n1), ← List.append_assoc (withLen n2)] at h
      rw [List.append_assoc (withLen n1), List.append_assoc (withLen n2)] at h
      obtain ⟨hn, hrest⟩ := withLen_inj_parts hp1.1 hp2.1 h
      obtain ⟨hv, ht⟩ := withLen_inj_parts hp1.2 hp2.2 hrest
      have := ih (fun r hr => hb1 r (List.mem_cons_of_mem _ hr))
        (fun r hr => hb2 r (List.mem_cons_of_mem _ hr)) ht
      have hn' : n1 = n2 := hn
      have hv' : v1 = v2 := hv
      rw [hn', hv', this]

theorem boundedFields_of_perm {l1 l2 : FieldMap} (hp : List.Perm l1 l2)
    (h : boundedFields l1) : boundedFields l2 :=
  fun p hm => h p (hp.symm.subset hm)

/-- Distinct canonical forms give distinct canonical encodings. -/
theorem encodeFields_ne_of_canon_ne {l1 l2 : FieldMap}
    (hb1 : boundedFields l1) (hb2 : boundedFields l2)
    (hne : canonFields l1 ≠ canonFields l2) : encodeFields l1 ≠ encodeFields l2 := by
  intro h
  exact hne (flatEncode_inj
    (boundedFields_of_perm (canonFields_perm l1).symm hb1)
    (boundedFields_of_perm (canonFields_perm l2).symm hb2) h)

/-! ## Primitive-layer lemmas -/

theorem pad4_length (nonce : Bytes) : (pad4 nonce).length = 4 := by
  simp [pad4]

theorem tag_inj {alg : String} {key m1 m2 : Bytes}
    (h : tag alg key m1 = tag alg key m2) : m1 = m2 := by
  unfold tag at h
  rw [List.append_assoc, List.append_assoc] at h
  exact List.append_cancel_left (List.append_cancel_left h)

/-- Whatever the primitive signs, its own verification accepts. -/
theorem primVerify_primSign {alg : String} {key nonce msg v : Bytes}
    (h : primSign alg key nonce msg = some v) :
    primVerify alg key msg v = some true := by
  unfold primSign at h
  by_cases hs : isSymmetric alg = true
  · rw [if_pos hs] at h
    injection h with h
    simp [primVerify, hs, ← h]
  · rw [if_neg hs] at h
    by_cases ha : isAsymmetric alg = true
    · rw [if_pos ha] at h
      injection h with h
      have hd : v.drop 4 = tag alg key msg := by
        rw [← h, ← pad4_length nonce, List.drop_left]
      have hl : 4 ≤ v.length := by
        rw [← h, List.length_append, pad4_length]
        omega
      simp [primVerify, hs, ha, hd, hl]
    · rw [if_neg ha] at h
      cases h

/-- A recognized algorithm always signs. -/
theorem primSign_isSome (alg : String) (key nonce msg : Bytes)
    (h : recognized alg = true) : ∃ v, primSign alg key nonce msg = some v := by
  unfold recognized at h
  unfold primSign
  rcases Bool.or_eq_true_iff.mp h with hs | ha
  · exact ⟨_, by rw [if_pos hs]⟩
  · by_cases hs' : isSymmetric alg = true
    · exact ⟨_, by rw [if_pos hs']⟩
    · exact ⟨_, by rw [if_neg hs', if_pos ha]⟩

/-- Two primitive signatures with the same algorithm and key agree only if
the signed messages agree (the ideal primitive is collision-free). -/
theorem primSign_value_inj {alg : String} {key n1 n2 m1 m2 v1 v2 : Bytes}
    (h1 : primSign alg key n1 m1 = some v1) (h2 : primSign alg key n2 m2 = some v2)
    (hv : v1 = v2) : m1 = m2 := by
  unfold primSign at h1 h2
  by_cases hs : isSymmetric alg = true
  · rw [if_pos hs] at h1 h2
    injection h1 with h1; injection h2 with h2
    exact tag_inj (h1.trans (hv.trans h2.symm))
  · rw [if_neg hs] at h1 h2
    by_cases ha : isAsymmetric alg = true
    · rw [if_pos ha] at h1 h2
      injection h1 with h1; injection h2 with h2
      subst h1; subst h2
      obtain ⟨-, htag⟩ := List.append_inj hv (by rw [pad4_length, pad4_length])
      exact tag_inj htag
    · rw [if_neg ha] at h1
      cases h1

/-! ## Signature-engine lemmas -/

/-- What a successful `Sign` tells us about the artifact it produced. -/
theorem Sign_ok_elim {penv : EnvMap} {sf : SignedFielder} {key : Key} {nonce : Bytes}
    {sig : Signature} (h : Sign penv sf key nonce = .ok sig) :
    sig.Algorithm = key.Alg ∧
    sig.SignedFields = (canonFields (allFields penv sf)).map Prod.fst ∧
    primSign key.Alg key.Material nonce (flatEncode (canonFields (allFields penv sf)))
      = some sig.Value := by
  unfold Sign at h
  cases hp : primSign key.Alg key.Material nonce
      (flatEncode (canonFields (allFields penv sf))) with
  | none => rw [hp] at h; cases h
  | some v =>
    rw [hp] at h
    injection h with h
    subst h
    exact ⟨rfl, rfl, rfl⟩

/-- `Sign` succeeds on every recognized algorithm. -/
theorem Sign_ok_of_recognized (penv : EnvMap) (sf : SignedFielder) (key : Key)
    (nonce : Bytes) (h : recognized key.Alg = true) :
    ∃ sig, Sign penv sf key nonce = .ok sig := by
  obtain ⟨v, hv⟩ := primSign_isSome key.Alg key.Material nonce
    (flatEncode (canonFields (allFields penv sf))) h
  exact ⟨_, by unfold Sign; rw [hv]⟩

/-- The signed field map depends on the sign-time environment only through
the serialized effective environment. -/
theorem allFields_env_congr {senv venv : EnvMap} {sf : SignedFielder}
    (henv : serializeEnv (mergeEnv venv (stepEnvOf sf))
      = serializeEnv (mergeEnv senv (stepEnvOf sf))) :
    allFields venv sf = allFields senv sf := by
  unfold allFields
  rw [henv]

/-- The core round-trip fact: an artifact freshly produced by `Sign`
verifies against the counterpart key whenever the verify-time environment
merges to the same serialized effective environment. -/
theorem verify_after_sign {senv venv : EnvMap} {sf : SignedFielder} {key : Key}
    {nonce : Bytes} {sig : Signature}
    (hwf : keysNodup (allFields senv sf))
    (henv : serializeEnv (mergeEnv venv (stepEnvOf sf))
      = serializeEnv (mergeEnv senv (stepEnvOf sf)))
    (hsig : Sign senv sf key nonce = .ok sig) :
    Verify sig venv sf key = .ok () := by
  obtain ⟨halg, hnames, hval⟩ := Sign_ok_elim hsig
  have hfields : allFields venv sf = allFields senv sf := allFields_env_congr henv
  have hlook : ∀ p ∈ canonFields (allFields senv sf),
      findField p.1 (allFields senv sf) = some p.2 := by
    intro p hp
    obtain ⟨n, v⟩ := p
    exact findField_eq_of_mem hwf ((canonFields_perm _).subset hp)
  have hvals : valuesForFields (allFields venv sf) sig.SignedFields
      = .ok (canonFields (allFields senv sf)) := by
    rw [hfields, hnames]
    exact valuesForFields_of_mem hlook
  have henc : encodeFields (canonFields (allFields senv sf))
      = flatEncode (canonFields (allFields senv sf)) := by
    unfold encodeFields
    rw [canonFields_canonFields]
  unfold Verify
  rw [if_neg (by rw [halg]; exact fun h => h rfl)]
  simp only [hvals, henc, primVerify_primSign hval]

/-! ## Environment-merge lemmas -/

theorem containsKey_iff {k : Bytes} {l : List (Bytes × Bytes)} :
    containsKey k l = true ↔ k ∈ l.map Prod.fst := by
  unfold containsKey
  rw [List.any_eq_true]
  constructor
  · rintro ⟨p, hp, he⟩
    exact List.mem_map.mpr ⟨p, hp, eq_of_beq he⟩
  · intro h
    obtain ⟨p, hp, he⟩ := List.mem_map.mp h
    exact ⟨p, hp, beq_iff_eq.mpr he⟩

theorem containsKey_congr_of_perm (k : Bytes) {l1 l2 : List (Bytes × Bytes)}
    (hp : List.Perm l1 l2) : containsKey k l1 = containsKey k l2 := by
  cases h2 : containsKey k l2 with
  | true =>
    exact containsKey_iff.mpr ((hp.map Prod.fst).mem_iff.mpr (containsKey_iff.mp h2))
  | false =>
    cases h1 : containsKey k l1 with
    | true =>
      rw [← h2]
      exact (containsKey_iff.mpr
        ((hp.map Prod.fst).mem_iff.mp (containsKey_iff.mp h1))).symm ▸ rfl
    | false => rfl

/-- Merging permuted environments yields permuted effective environments. -/
theorem mergeEnv_perm {p1 p2 s1 s2 : EnvMap} (hp : List.Perm p1 p2)
    (hs : List.Perm s1 s2) : List.Perm (mergeEnv p1 s1) (mergeEnv p2 s2) := by
  unfold mergeEnv
  refine hp.append ?_
  have hcong : s2.filter (fun p => !containsKey p.1 p1)
      = s2.filter (fun p => !containsKey p.1 p2) := by
    apply List.filter_congr
    intro x _
    rw [containsKey_congr_of_perm x.1 hp]
  rw [← hcong]
  exact hs.filter _

/-- The effective environment has duplicate-free keys whenever both layers do. -/
theorem mergeEnv_keysNodup {penv senv : EnvMap} (hp : keysNodup penv)
    (hs : keysNodup senv) : keysNodup (mergeEnv penv senv) := by
  unfold mergeEnv keysNodup
  rw [List.map_append]
  refine List.Nodup.append hp ?_ ?_
  · exact ((List.filter_sublist senv).map Prod.fst).nodup hs
  · rw [List.disjoint_left]
    intro k hk hk'
    obtain ⟨p, hpmem, hpk⟩ := List.mem_map.mp hk'
    have := List.mem_filter.mp hpmem
    rw [Bool.not_eq_true'] at this
    have hcontra : containsKey p.1 penv = true :=
      containsKey_iff.mpr (by rw [hpk]; exact hk)
    rw [this.2] at hcontra
    cases hcontra

/-! ## Plugin-configuration and field-map shape lemmas -/

theorem serializeCEntries_eq_map (es : List (Bytes × CVal)) :
    serializeCEntries es = es.map (fun p => (p.1, serializeCVal p.2)) := by
  induction es with
  | nil => rfl
  | cons p rest ih =>
    obtain ⟨k, v⟩ := p
    simp [serializeCEntries, ih]

/-- Reordering the entries of a configuration mapping (with duplicate-free
keys) does not change its deterministic stringification. -/
theorem serializeCVal_map_perm {es1 es2 : List (Bytes × CVal)}
    (hp : List.Perm es1 es2) (hn : (es1.map Prod.fst).Nodup) :
    serializeCVal (.map es1) = serializeCVal (.map es2) := by
  show 1 :: encodeFields (serializeCEntries es1) = 1 :: encodeFields (serializeCEntries es2)
  have hperm : List.Perm (serializeCEntries es1) (serializeCEntries es2) := by
    rw [serializeCEntries_eq_map, serializeCEntries_eq_map]
    exact hp.map _
  have hnd : keysNodup (serializeCEntries es1) := by
    unfold keysNodup
    rw [serializeCEntries_eq_map, List.map_map]
    exact hn
  rw [encodeFields_eq_of_perm hperm hnd]

theorem keysNodup_allFields_command (env : EnvMap) (cs : CommandStep) :
    keysNodup (allFields env (.commandStep cs)) := by
  unfold keysNodup allFields coreFields envFieldName
  simp only [List.map_cons, List.map_nil]
  decide

/-- The field names signed for a fielder do not depend on the environment. -/
theorem allFields_keys_const (env1 env2 : EnvMap) (sf : SignedFielder) :
    (allFields env1 sf).map Prod.fst = (allFields env2 sf).map Prod.fst := rfl

/-! ## Step-collection and lookup-failure lemmas -/

/-- When some requested name is unknown to the fielder, the lookup fails
with the unknown-field error (and never invents a value). -/
theorem valuesForFields_error_of_missing {L : FieldMap} :
    ∀ {names : List Bytes} {n : Bytes}, n ∈ names → findField n L = none →
      valuesForFields L names = .error .unknownSignedField := by
  intro names
  induction names with
  | nil => intro n h; cases h
  | cons m rest ih =>
    intro n hmem hnone
    rcases List.mem_cons.mp hmem with he | hm
    · subst he
      simp only [valuesForFields, hnone]
    · cases hf : findField m L with
      | none => simp only [valuesForFields, hf]
      | some v =>
        simp only [valuesForFields, hf, ih hm hnone]

/-- A batch that contains the catch-all variant is refused whole (assuming
the key itself is usable, i.e. its algorithm is recognized). -/
theorem stepsSign_error_of_unknown {penv : EnvMap} {key : Key} {nonce : Bytes}
    (hrec : recognized key.Alg = true) :
    ∀ {steps : List Step}, (∃ c, Step.unknown c ∈ steps) →
      stepsSign penv steps key nonce = .error .unsupportedStepType := by
  intro steps
  induction steps with
  | nil => rintro ⟨c, hc⟩; cases hc
  | cons s rest ih =>
    rintro ⟨c, hc⟩
    cases s with
    | unknown c' => rfl
    | cmd cs =>
      have hmem : Step.unknown c ∈ rest := by
        rcases List.mem_cons.mp hc with he | hm
        · cases he
        · exact hm
      obtain ⟨sg, hsg⟩ := Sign_ok_of_recognized penv (.commandStep cs) key nonce hrec
      simp only [stepsSign, hsg, ih ⟨c, hmem⟩]

/-- A key found in the left list of an append is resolved there. -/
theorem findField_append_left {k v : Bytes} :
    ∀ {l1 : List (Bytes × Bytes)} (l2 : List (Bytes × Bytes)),
      findField k l1 = some v → findField k (l1 ++ l2) = some v := by
  intro l1
  induction l1 with
  | nil => intro l2 h; cases h
  | cons q rest ih =>
    intro l2 h
    obtain ⟨m, u⟩ := q
    by_cases hm : m = k
    · subst hm
      simp only [findField, if_pos rfl] at h ⊢
      exact h
    · simp only [List.cons_append, findField, if_neg hm] at h ⊢
      exact ih l2 h

/-! ## Concrete fixtures (mirroring the test suite's inputs) -/

/-- The HMAC-SHA256 key of the test suite (passphrase "alpacas"). -/
def hs256Key : Key := ⟨"HS256", strBytes "alpacas"⟩

/-- An elliptic-curve key pair seed, P-256. -/
def es256Key : Key := ⟨"ES256", strBytes "llama-seed"⟩

/-- The deliberately unrecognized algorithm of `TestUnknownAlgorithm`. -/
def rot13Key : Key := ⟨"rot13", strBytes "alpacas"⟩

/-- `TestSignVerify`'s step: command "llamas" with a step-level env. -/
def c1Step : CommandStep :=
  ⟨strBytes "llamas",
   [(strBytes "CONTEXT", strBytes "cats"), (strBytes "DEPLOY", strBytes "0")], []⟩

/-- The pipeline-level env the agent uploads: DEPLOY=1 overrides the step. -/
def c1SignEnv : EnvMap := [(strBytes "DEPLOY", strBytes "1")]

/-- A verify-time env yielding the same effective fields, in another order. -/
def c1VerifyEnv : EnvMap :=
  [(strBytes "CONTEXT", strBytes "cats"), (strBytes "DEPLOY", strBytes "1")]

/-- The artifact `Sign` produces on the C1 fixture. -/
def c1Sig : Signature :=
  (Sign c1SignEnv (.commandStep c1Step) hs256Key []).toOption.getD ⟨"", [], []⟩

/-- `TestSignConcatenatedFields` map `{"foo":"bar","qux":"zap"}`. -/
def cmapA : FieldMap := [(strBytes "foo", strBytes "bar"), (strBytes "qux", strBytes "zap")]

/-- `TestSignConcatenatedFields` map `{"foob":"ar","qu":"xzap"}`. -/
def cmapB : FieldMap := [(strBytes "foob", strBytes "ar"), (strBytes "qu", strBytes "xzap")]

/-- `TestSignConcatenatedFields` map `{"foo":"barquxzap"}`. -/
def cmapC : FieldMap := [(strBytes "foo", strBytes "barquxzap")]

/-- `TestSignConcatenatedFields`' adversarial map: a single value crafted to
contain bytes resembling 4-byte (little-endian) length prefixes. -/
def cmapD : FieldMap :=
  [(strBytes "foo", [98, 97, 114, 3, 0, 0, 0, 113, 117, 120, 3, 0, 0, 0, 122, 97, 112])]

/-! ## Claims -/

/-- C1: For every Signable step, sign environment, and key pair where `key'`
is the correct verification counterpart of `key`, verifying the artifact
produced by `Sign` succeeds whenever the verify-time environment merged with
the step yields the same effective fields as the sign-time environment did:
`Verify (verify_env, step, Sign (sign_env, step, key), key')` returns
success. (The fielder's field map must be free of duplicate names, an
invariant every known step variant satisfies by construction.) -/
theorem c1_sign_verify_roundtrip (senv venv : EnvMap) (sf : SignedFielder)
    (key : Key) (nonce : Bytes) (sig : Signature)
    (hwf : keysNodup (allFields senv sf))
    (henv : serializeEnv (mergeEnv venv (stepEnvOf sf))
      = serializeEnv (mergeEnv senv (stepEnvOf sf)))
    (hsig : Sign senv sf key nonce = .ok sig) :
    Verify sig venv sf (counterpartKey key) = .ok () :=
  verify_after_sign hwf henv hsig

/-- Witness for C1 at the `TestSignVerify` fixture: pipeline env DEPLOY=1
over step env CONTEXT=cats, DEPLOY=0; the verify-time env lists the same
effective pairs in a different order. -/
theorem c1_sign_verify_roundtrip_witness :
    keysNodup (allFields c1SignEnv (.commandStep c1Step)) ∧
    serializeEnv (mergeEnv c1VerifyEnv (stepEnvOf (.commandStep c1Step)))
      = serializeEnv (mergeEnv c1SignEnv (stepEnvOf (.commandStep c1Step))) ∧
    Sign c1SignEnv (.commandStep c1Step) hs256Key [] = .ok c1Sig ∧
    Verify c1Sig c1VerifyEnv (.commandStep c1Step) (counterpartKey hs256Key) = .ok () :=
  ⟨keysNodup_allFields_command _ _, by decide, rfl,
    c1_sign_verify_roundtrip c1SignEnv c1VerifyEnv (.commandStep c1Step) hs256Key [] c1Sig
      (keysNodup_allFields_command _ _) (by decide) rfl⟩

/-- C2: field maps with different (name, value) partitions — in particular
ones whose concatenated content coincides, and ones whose values mimic a
4-byte length prefix — have different canonical byte encodings, and hence
the signatures produced over them with the same key differ. Stated for all
pairs of duplicate-key-free, length-bounded field maps whose canonical pair
lists differ, which subsumes every identical-content/different-boundary
pair. -/
theorem c2_splitting_resistance (fm1 fm2 : FieldMap) (key : Key) (n1 n2 : Bytes)
    (hb1 : boundedFields fm1) (hb2 : boundedFields fm2)
    (hn1 : keysNodup fm1)
    (hne : canonFields fm1 ≠ canonFields fm2) :
    encodeFields fm1 ≠ encodeFields fm2 ∧
    ∀ s1 s2, Sign [] (.fieldsMap fm1) key n1 = .ok s1 →
      Sign [] (.fieldsMap fm2) key n2 = .ok s2 → s1.Value ≠ s2.Value := by
  constructor
  · exact encodeFields_ne_of_canon_ne hb1 hb2 hne
  · intro s1 s2 h1 h2 hv
    obtain ⟨-, -, hp1⟩ := Sign_ok_elim h1
    obtain ⟨-, -, hp2⟩ := Sign_ok_elim h2
    have hflat := primSign_value_inj hp1 hp2 hv
    have hAF : ∀ fm : FieldMap,
        allFields [] (.fieldsMap fm) = (envFieldName, ([] : Bytes)) :: fm := fun _ => rfl
    rw [hAF fm1, hAF fm2] at hflat
    have hbL1 : boundedFields (canonFields ((envFieldName, ([] : Bytes)) :: fm1)) := by
      refine boundedFields_of_perm (canonFields_perm _).symm ?_
      intro p hp
      rcases List.mem_cons.mp hp with he | hm
      · subst he; exact ⟨by decide, by decide⟩
      · exact hb1 p hm
    have hbL2 : boundedFields (canonFields ((envFieldName, ([] : Bytes)) :: fm2)) := by
      refine boundedFields_of_perm (canonFields_perm _).symm ?_
      intro p hp
      rcases List.mem_cons.mp hp with he | hm
      · subst he; exact ⟨by decide, by decide⟩
      · exact hb2 p hm
    have hcanon := flatEncode_inj hbL1 hbL2 hflat
    have hpermL : List.Perm ((envFieldName, ([] : Bytes)) :: fm1)
        ((envFieldName, ([] : Bytes)) :: fm2) :=
      ((canonFields_perm _).symm.trans (hcanon ▸ canonFields_perm _))
    have hpermFm : List.Perm fm1 fm2 := hpermL.cons_inv
    exact hne (canonFields_eq_of_perm hpermFm hn1)

/-- Witness for C2 at the `TestSignConcatenatedFields` fixtures: the
identical-content pair `{"foo":"bar","qux":"zap"}` vs
`{"foob":"ar","qu":"xzap"}`, and the crafted fake-length-prefix map. -/
theorem c2_splitting_resistance_witness :
    (boundedFields cmapA ∧ boundedFields cmapB ∧ keysNodup cmapA ∧
      canonFields cmapA ≠ canonFields cmapB ∧
      encodeFields cmapA ≠ encodeFields cmapB) ∧
    (canonFields cmapA ≠ canonFields cmapD ∧
      encodeFields cmapA ≠ encodeFields cmapD) ∧
    (canonFields cmapA ≠ canonFields cmapC ∧
      encodeFields cmapA ≠ encodeFields cmapC) :=
  ⟨⟨by decide, by decide, by decide, by decide,
    (c2_splitting_resistance cmapA cmapB hs256Key [] [] (by decide) (by decide)
      (by decide) (by decide)).1⟩,
   ⟨by decide,
    (c2_splitting_resistance cmapA cmapD hs256Key [] [] (by decide) (by decide)
      (by decide) (by decide)).1⟩,
   ⟨by decide,
    (c2_splitting_resistance cmapA cmapC hs256Key [] [] (by decide) (by decide)
      (by decide) (by decide)).1⟩⟩

/-- C3: the Canonical Field Encoder produces the same bytes regardless of
the insertion order of the field map's pairs, of the iteration order of the
underlying environment map, and of the iteration order of a plugin
configuration mapping; consequently signing with differently-ordered
in-memory maps produces identical artifacts, and verifying across the two
orderings succeeds. -/
theorem c3_reorder_determinism :
    (∀ fm1 fm2 : FieldMap, List.Perm fm1 fm2 → keysNodup fm1 →
      encodeFields fm1 = encodeFields fm2) ∧
    (∀ env1 env2 : EnvMap, List.Perm env1 env2 → keysNodup env1 →
      serializeEnv env1 = serializeEnv env2) ∧
    (∀ es1 es2 : List (Bytes × CVal), List.Perm es1 es2 → (es1.map Prod.fst).Nodup →
      serializeCVal (.map es1) = serializeCVal (.map es2)) ∧
    (∀ (penv1 penv2 : EnvMap) (cs1 cs2 : CommandStep) (key : Key) (nonce : Bytes),
      List.Perm penv1 penv2 → keysNodup penv1 →
      cs1.Command = cs2.Command → List.Perm cs1.Env cs2.Env → keysNodup cs1.Env →
      cs1.Plugins = cs2.Plugins →
      Sign penv1 (.commandStep cs1) key nonce = Sign penv2 (.commandStep cs2) key nonce ∧
      ∀ sig, Sign penv1 (.commandStep cs1) key nonce = .ok sig →
        Verify sig penv2 (.commandStep cs2) (counterpartKey key) = .ok ()) := by
  refine ⟨fun fm1 fm2 hp hn => encodeFields_eq_of_perm hp hn,
    fun env1 env2 hp hn => encodeFields_eq_of_perm hp hn,
    fun es1 es2 hp hn => serializeCVal_map_perm hp hn,
    fun penv1 penv2 cs1 cs2 key nonce hpp hppn hcmd hse hsen hplug => ?_⟩
  have henv : serializeEnv (mergeEnv penv1 cs1.Env)
      = serializeEnv (mergeEnv penv2 cs2.Env) :=
    encodeFields_eq_of_perm (mergeEnv_perm hpp hse) (mergeEnv_keysNodup hppn hsen)
  have hfields : allFields penv1 (.commandStep cs1) = allFields penv2 (.commandStep cs2) := by
    simp only [allFields, coreFields, stepEnvOf]
    rw [henv, hcmd, hplug]
  have hsign : Sign penv1 (.commandStep cs1) key nonce
      = Sign penv2 (.commandStep cs2) key nonce := by
    unfold Sign
    rw [hfields]
  refine ⟨hsign, fun sig hsig => ?_⟩
  exact verify_after_sign (keysNodup_allFields_command penv2 cs2)
    (by rfl) (hsign ▸ hsig)

/-- A two-entry field map, and the same pairs in the other order. -/
def c3FmA : FieldMap := [(strBytes "b", strBytes "2"), (strBytes "a", strBytes "1")]

/-- The pairs of `c3FmA`, permuted. -/
def c3FmB : FieldMap := [(strBytes "a", strBytes "1"), (strBytes "b", strBytes "2")]

/-- A plugin-configuration mapping, and the same entries permuted. -/
def c3CfgA : List (Bytes × CVal) :=
  [(strBytes "y", .str (strBytes "v")), (strBytes "x", .str (strBytes "u"))]

/-- The entries of `c3CfgA`, permuted. -/
def c3CfgB : List (Bytes × CVal) :=
  [(strBytes "x", .str (strBytes "u")), (strBytes "y", .str (strBytes "v"))]

/-- A command step with a two-entry step env. -/
def c3CsA : CommandStep :=
  ⟨strBytes "llamas", [(strBytes "D", strBytes "0"), (strBytes "C", strBytes "9")], []⟩

/-- The same step with its env entries permuted. -/
def c3CsB : CommandStep :=
  ⟨strBytes "llamas", [(strBytes "C", strBytes "9"), (strBytes "D", strBytes "0")], []⟩

/-- A two-entry pipeline env. -/
def c3PeA : EnvMap := [(strBytes "B", strBytes "2"), (strBytes "A", strBytes "1")]

/-- The entries of `c3PeA`, permuted. -/
def c3PeB : EnvMap := [(strBytes "A", strBytes "1"), (strBytes "B", strBytes "2")]

/-- Witness for C3: a two-entry field map, a plugin configuration, and
pipeline/step environments, each permuted. -/
theorem c3_reorder_determinism_witness :
    (List.Perm c3FmA c3FmB ∧ keysNodup c3FmA ∧
      encodeFields c3FmA = encodeFields c3FmB) ∧
    serializeCVal (.map c3CfgA) = serializeCVal (.map c3CfgB) ∧
    Sign c3PeA (.commandStep c3CsA) hs256Key [] = Sign c3PeB (.commandStep c3CsB) hs256Key [] :=
  ⟨⟨by decide, by decide,
    c3_reorder_determinism.1 c3FmA c3FmB (by decide) (by decide)⟩,
   c3_reorder_determinism.2.2.1 c3CfgA c3CfgB (List.Perm.swap _ _ _) (by decide),
   (c3_reorder_determinism.2.2.2 c3PeA c3PeB c3CsA c3CsB hs256Key [] (by decide)
      (by decide) rfl (by decide) (by decide) rfl).1⟩

/-- The pipeline-level env used for C4. -/
def c4PipelineEnv : EnvMap := [(strBytes "DEPLOY", strBytes "1")]

/-- The step used for C4: its own env says DEPLOY=0. -/
def c4Step : CommandStep := ⟨strBytes "llamas", [(strBytes "DEPLOY", strBytes "0")], []⟩

/-- A verify-time env with DEPLOY=1 (the pipeline-level value). -/
def c4EnvOne : EnvMap := [(strBytes "DEPLOY", strBytes "1")]

/-- A verify-time env with DEPLOY=0 (the step-level value only). -/
def c4EnvZero : EnvMap := [(strBytes "DEPLOY", strBytes "0")]

/-- C4: for every key present in both layers, the effective environment
maps it to the pipeline-level value; consequently a step signed with
pipeline env DEPLOY=1 over step env DEPLOY=0 verifies against effective env
DEPLOY=1 and fails with a verification mismatch against DEPLOY=0. -/
theorem c4_env_precedence :
    (∀ (penv senv : EnvMap) (k v w : Bytes), findField k penv = some v →
      findField k senv = some w → findField k (mergeEnv penv senv) = some v) ∧
    ((Sign c4PipelineEnv (.commandStep c4Step) hs256Key []).map
        (fun s => (Verify s c4EnvOne (.commandStep c4Step) hs256Key,
                   Verify s c4EnvZero (.commandStep c4Step) hs256Key))
      = .ok (.ok (), .error .verificationMismatch)) := by
  constructor
  · intro penv senv k v w hp _
    unfold mergeEnv
    exact findField_append_left _ hp
  · rfl

/-- Witness for C4's general clause: DEPLOY present in both layers with
values 1 (pipeline) and 0 (step) resolves to 1. -/
theorem c4_env_precedence_witness :
    findField (strBytes "DEPLOY") c4PipelineEnv = some (strBytes "1") ∧
    findField (strBytes "DEPLOY") c4Step.Env = some (strBytes "0") ∧
    findField (strBytes "DEPLOY") (mergeEnv c4PipelineEnv c4Step.Env) = some (strBytes "1") :=
  ⟨by decide, by decide,
    c4_env_precedence.1 c4PipelineEnv c4Step.Env (strBytes "DEPLOY")
      (strBytes "1") (strBytes "0") (by decide) (by decide)⟩

/-- C5: signing an ordered step collection that contains a catch-all
unknown step fails with the distinct signing-refused-unknown-step-type
error; since the batch operation returns only an error, no signature
artifact is attached to any step of the batch. -/
theorem c5_unknown_step_refusal (penv : EnvMap) (steps : List Step) (key : Key)
    (nonce : Bytes) (hrec : recognized key.Alg = true)
    (hmem : ∃ c, Step.unknown c ∈ steps) :
    stepsSign penv steps key nonce = .error .unsupportedStepType :=
  stepsSign_error_of_unknown hrec hmem

/-- Witness for C5 at the `TestSignUnknownStep` fixture: a batch holding
one unknown step with contents "secret third thing". -/
theorem c5_unknown_step_refusal_witness :
    recognized hs256Key.Alg = true ∧
    stepsSign [] [Step.unknown (.str (strBytes "secret third thing"))] hs256Key []
      = .error .unsupportedStepType :=
  ⟨by decide,
    c5_unknown_step_refusal [] [Step.unknown (.str (strBytes "secret third thing"))]
      hs256Key [] (by decide)
      ⟨.str (strBytes "secret third thing"), List.mem_cons_self _ _⟩⟩

/-- The bare command step `{Command: "llamas"}` of the tamper tests. -/
def llamasStep : CommandStep := ⟨strBytes "llamas", [], []⟩

/-- C6: asking for a field name the step's field-production routine does
not produce fails with the unknown-field error and never substitutes a
default; hence `Verify` fails when an artifact's signed-fields list names a
field unknown to the step. -/
theorem c6_unknown_field_rejection :
    (∀ (L : FieldMap) (names : List Bytes) (n : Bytes), n ∈ names →
      findField n L = none → valuesForFields L names = .error .unknownSignedField) ∧
    (∀ (venv : EnvMap) (sf : SignedFielder) (key : Key) (sig : Signature) (n : Bytes),
      sig.Algorithm = key.Alg → n ∈ sig.SignedFields →
      findField n (allFields venv sf) = none →
      Verify sig venv sf key = .error .unknownSignedField) := by
  refine ⟨fun L names n hmem hnone => valuesForFields_error_of_missing hmem hnone,
    fun venv sf key sig n halg hmem hnone => ?_⟩
  unfold Verify
  rw [if_neg (by rw [halg]; exact fun h => h rfl)]
  simp only [valuesForFields_error_of_missing hmem hnone]

/-- An artifact whose signed-fields list names a field ("other") that a
command step does not produce. -/
def c6Sig : Signature := ⟨"HS256", [strBytes "other"], strBytes "whatever"⟩

/-- Witness for C6: verifying `c6Sig` against the llamas step fails with
the unknown-field error. -/
theorem c6_unknown_field_rejection_witness :
    (strBytes "other") ∈ c6Sig.SignedFields ∧
    findField (strBytes "other") (allFields [] (.commandStep llamasStep)) = none ∧
    Verify c6Sig [] (.commandStep llamasStep) hs256Key = .error .unknownSignedField :=
  ⟨by decide, by decide,
    c6_unknown_field_rejection.2 [] (.commandStep llamasStep) hs256Key c6Sig
      (strBytes "other") rfl (by decide) (by decide)⟩

/-- C7: verifying a hand-constructed artifact whose signature value does
not correspond to the step's actual field values under the provided key
(it equals neither the ideal primitive's tag over the recomputed canonical
payload nor, modulo the 4-byte nonce, an asymmetric signature of it) fails
with a verification mismatch. -/
theorem c7_tamper_detection (venv : EnvMap) (sf : SignedFielder) (key : Key)
    (sig : Signature) (vals : FieldMap)
    (hrec : recognized key.Alg = true)
    (halg : sig.Algorithm = key.Alg)
    (hvals : valuesForFields (allFields venv sf) sig.SignedFields = .ok vals)
    (hbad1 : sig.Value ≠ tag key.Alg key.Material (encodeFields vals))
    (hbad2 : sig.Value.drop 4 ≠ tag key.Alg key.Material (encodeFields vals)) :
    Verify sig venv sf key = .error .verificationMismatch := by
  have hpv : primVerify key.Alg key.Material (encodeFields vals) sig.Value = some false := by
    unfold primVerify
    by_cases hs : isSymmetric key.Alg = true
    · rw [if_pos hs]
      rw [beq_eq_false_iff_ne.mpr hbad1]
    · have ha : isAsymmetric key.Alg = true := by
        unfold recognized at hrec
        rcases Bool.or_eq_true_iff.mp hrec with h | h
        · exact absurd h hs
        · exact h
      rw [if_neg hs, if_pos ha]
      rw [beq_eq_false_iff_ne.mpr hbad2, Bool.and_false]
  unfold Verify
  rw [if_neg (by rw [halg]; exact fun h => h rfl)]
  simp only [hvals, hpv]

/-- The hand-constructed bad artifact of `TestVerifyBadSignature`: claims
to sign the "command" field but carries the value "alpacas". -/
def c7Sig : Signature := ⟨"HS256", [strBytes "command"], strBytes "alpacas"⟩

/-- Witness for C7: verifying the bad artifact against the llamas step
with the alpacas HMAC key fails with a verification mismatch. -/
theorem c7_tamper_detection_witness :
    recognized hs256Key.Alg = true ∧
    valuesForFields (allFields [] (.commandStep llamasStep)) c7Sig.SignedFields
      = .ok [(strBytes "command", strBytes "llamas")] ∧
    c7Sig.Value ≠ tag hs256Key.Alg hs256Key.Material
      (encodeFields [(strBytes "command", strBytes "llamas")]) ∧
    Verify c7Sig [] (.commandStep llamasStep) hs256Key = .error .verificationMismatch :=
  ⟨by decide, rfl, by decide,
    c7_tamper_detection [] (.commandStep llamasStep) hs256Key c7Sig
      [(strBytes "command", strBytes "llamas")]
      (by decide) rfl rfl (by decide) (by decide)⟩

/-- C8: `Sign` with a key whose algorithm the primitive layer does not
recognize fails with the unrecognized-algorithm error (no silent
downgrade), and `Verify` fails whenever the artifact's algorithm differs
from the provided key's algorithm. -/
theorem c8_algorithm_strictness :
    (∀ (penv : EnvMap) (sf : SignedFielder) (key : Key) (nonce : Bytes),
      recognized key.Alg = false → Sign penv sf key nonce = .error .unrecognizedAlgorithm) ∧
    (∀ (sig : Signature) (venv : EnvMap) (sf : SignedFielder) (key : Key),
      sig.Algorithm ≠ key.Alg → Verify sig venv sf key = .error .algorithmMismatch) := by
  constructor
  · intro penv sf key nonce h
    rcases Bool.or_eq_false_iff.mp (by unfold recognized at h; exact h) with ⟨h1, h2⟩
    unfold Sign
    have hnone : primSign key.Alg key.Material nonce
        (flatEncode (canonFields (allFields penv sf))) = none := by
      simp [primSign, h1, h2]
    rw [hnone]
  · intro sig venv sf key h
    unfold Verify
    rw [if_pos h]

/-- Witness for C8: the "rot13" key of `TestUnknownAlgorithm` is refused
by `Sign`, and an HS256 artifact is refused against an ES256 key. -/
theorem c8_algorithm_strictness_witness :
    recognized rot13Key.Alg = false ∧
    Sign [] (.commandStep llamasStep) rot13Key [] = .error .unrecognizedAlgorithm ∧
    c7Sig.Algorithm ≠ es256Key.Alg ∧
    Verify c7Sig [] (.commandStep llamasStep) es256Key = .error .algorithmMismatch :=
  ⟨by decide,
    c8_algorithm_strictness.1 [] (.commandStep llamasStep) rot13Key [] (by decide),
    by decide,
    c8_algorithm_strictness.2 c7Sig [] (.commandStep llamasStep) es256Key (by decide)⟩

/-- The first of two asymmetric artifacts over the same inputs (nonce 0). -/
def c9Sig1 : Signature :=
  (Sign [] (.commandStep llamasStep) es256Key [0]).toOption.getD ⟨"", [], []⟩

/-- The second asymmetric artifact over the same inputs (nonce 1). -/
def c9Sig2 : Signature :=
  (Sign [] (.commandStep llamasStep) es256Key [1]).toOption.getD ⟨"", [], []⟩

/-- C9: with a symmetric (MAC) key, `Sign` is deterministic — two
invocations on identical inputs (whatever randomness is supplied) produce
byte-identical signature values, pinned by a golden value for a fixed key;
with an asymmetric key the two values may differ, but each artifact
independently verifies against the counterpart key. -/
theorem c9_symmetric_determinism :
    (∀ (penv : EnvMap) (sf : SignedFielder) (key : Key) (n1 n2 : Bytes),
      isSymmetric key.Alg = true → Sign penv sf key n1 = Sign penv sf key n2) ∧
    (Sign [] (.fieldsMap [([97], [98])]) ⟨"HS256", [107]⟩ []).map Signature.Value
      = .ok [5, 0, 0, 0, 72, 83, 50, 53, 54, 1, 0, 0, 0, 107, 1, 0, 0, 0, 97,
             1, 0, 0, 0, 98, 3, 0, 0, 0, 101, 110, 118, 0, 0, 0, 0] ∧
    (∀ (penv : EnvMap) (sf : SignedFielder) (key : Key) (n1 n2 : Bytes)
      (s1 s2 : Signature),
      isAsymmetric key.Alg = true → keysNodup (allFields penv sf) →
      Sign penv sf key n1 = .ok s1 → Sign penv sf key n2 = .ok s2 →
      Verify s1 penv sf (counterpartKey key) = .ok () ∧
      Verify s2 penv sf (counterpartKey key) = .ok ()) := by
  refine ⟨fun penv sf key n1 n2 h => ?_, rfl,
    fun penv sf key n1 n2 s1 s2 _ hwf h1 h2 =>
      ⟨verify_after_sign hwf rfl h1, verify_after_sign hwf rfl h2⟩⟩
  unfold Sign primSign
  simp only [if_pos h]

/-- Witness for C9: HMAC signing ignores the supplied randomness, and two
ES256 artifacts over the same step differ in value yet both verify. -/
theorem c9_symmetric_determinism_witness :
    isSymmetric hs256Key.Alg = true ∧
    Sign [] (.commandStep llamasStep) hs256Key [0] = Sign [] (.commandStep llamasStep) hs256Key [1] ∧
    isAsymmetric es256Key.Alg = true ∧
    Sign [] (.commandStep llamasStep) es256Key [0] = .ok c9Sig1 ∧
    Sign [] (.commandStep llamasStep) es256Key [1] = .ok c9Sig2 ∧
    c9Sig1.Value ≠ c9Sig2.Value ∧
    Verify c9Sig1 [] (.commandStep llamasStep) (counterpartKey es256Key) = .ok () ∧
    Verify c9Sig2 [] (.commandStep llamasStep) (counterpartKey es256Key) = .ok () :=
  ⟨by decide,
    c9_symmetric_determinism.1 [] (.commandStep llamasStep) hs256Key [0] [1] (by decide),
    by decide, rfl, rfl, by decide,
    (c9_symmetric_determinism.2.2 [] (.commandStep llamasStep) es256Key [0] [1]
      c9Sig1 c9Sig2 (by decide) (keysNodup_allFields_command _ _) rfl rfl).1,
    (c9_symmetric_determinism.2.2 [] (.commandStep llamasStep) es256Key [0] [1]
      c9Sig1 c9Sig2 (by decide) (keysNodup_allFields_command _ _) rfl rfl).2⟩

/-- C10: `UnknownStep.interpolate` is atomic — when the interpolation
engine fails, the stored `Contents` are left unchanged — and serializing an
unknown step to JSON or YAML emits exactly the stored `Contents` with
nothing added. -/
theorem c10_unknown_step_atomicity {α : Type} (interp : EnvMap → α → Except String α)
    (env : EnvMap) (u : UnknownStep α) (e : String)
    (herr : interp env u.Contents = .error e) :
    (u.interpolate interp env).2 = u ∧
    (∀ (enc : α → Bytes) (u' : UnknownStep α),
      u'.marshalJSON enc = enc u'.Contents ∧ u'.marshalYAML = u'.Contents) := by
  constructor
  · unfold UnknownStep.interpolate
    rw [herr]
  · intro enc u'
    exact ⟨rfl, rfl⟩

/-- An interpolation engine that always fails. -/
def c10Interp : EnvMap → Nat → Except String Nat := fun _ _ => .error "boom"

/-- An unknown step with opaque contents. -/
def c10Step : UnknownStep Nat := ⟨7⟩

/-- Witness for C10: a failing interpolation leaves the contents of the
unknown step untouched, and YAML marshalling returns exactly the contents. -/
theorem c10_unknown_step_atomicity_witness :
    c10Interp [] c10Step.Contents = .error "boom" ∧
    (c10Step.interpolate c10Interp []).2 = c10Step ∧
    c10Step.marshalYAML = c10Step.Contents :=
  ⟨rfl, (c10_unknown_step_atomicity c10Interp [] c10Step "boom" rfl).1,
    ((c10_unknown_step_atomicity c10Interp [] c10Step "boom" rfl).2
      (fun _ => []) c10Step).2⟩

end PipelineSig

